import Mathlib

/-!
Shallow embedding of `validate_landing_page_links.py`, the GroupDocs landing
page link validator.  Strings are modelled as lists of characters (`Str`),
HTTP interactions as explicit `Except`-valued inputs, and the mutable
`errors` / `found_links` state of the Python class as values threaded
through pure functions.  Every definition mirrors the corresponding Python
function; theorems at the end settle the specification claims.
-/

set_option maxRecDepth 10000

/-- Strings are modelled as lists of characters. -/
abbrev Str := List Char

/-- Coerce a Lean string literal to the `Str` model. -/
def chars (s : String) : Str := s.data

/-- Characters removed by the Python strip method (whitespace). -/
def isSpaceChar (c : Char) : Bool :=
  c = ' ' || c = '\t' || c = '\n' || c = '\r' || c = '\x0b' || c = '\x0c'

/-- Python `str.strip()`: remove leading and trailing whitespace. -/
def trimStr (s : Str) : Str :=
  ((s.dropWhile isSpaceChar).reverse.dropWhile isSpaceChar).reverse

/-- Python `str.lower()` (ASCII range, which covers all names in play). -/
def lowerStr (s : Str) : Str := s.map Char.toLower

/-- Python `s.endswith(suffix)`. -/
def endsWithS (s suffix : Str) : Bool :=
  decide (s.reverse.take suffix.length = suffix.reverse)

/-- Python `s[:-n]` for `n > 0`: drop the last `n` characters. -/
def dropLastN (s : Str) (n : Nat) : Str := s.take (s.length - n)

/-- Fuel-driven worker for `replaceAll`. -/
def replaceAllAux (pat : Str) : Nat → Str → Str
  | _, [] => []
  | 0, s => s
  | n + 1, c :: cs =>
      if pat.isPrefixOf (c :: cs) then
        replaceAllAux pat n (List.drop pat.length (c :: cs))
      else
        c :: replaceAllAux pat n cs

/-- Python `s.replace(pat, "")`: remove every (leftmost, non-overlapping)
occurrence of `pat`. -/
def replaceAll (pat : Str) (s : Str) : Str :=
  replaceAllAux pat s.length s

/-- Replace one character by another everywhere (Python `s.replace(a, b)`
for single characters). -/
def replaceChar (a b : Char) (s : Str) : Str :=
  s.map (fun c => if c = a then b else c)

/-- Split a string at every `/` (Python `href`-style splitting used to model
the anchored regular expressions of the source). -/
def splitSlash : Str → List Str
  | [] => [[]]
  | c :: cs =>
      match splitSlash cs with
      | [] => [[]]
      | p :: ps => if c = '/' then [] :: p :: ps else (c :: p) :: ps

/-- Decimal digits of a natural number, fuel-driven. -/
def natDigitsAux : Nat → Nat → Str
  | 0, _ => []
  | _ + 1, 0 => []
  | fuel + 1, n =>
      natDigitsAux fuel (n / 10) ++ [Char.ofNat (48 + n % 10)]

/-- Render a natural number in decimal (Python string interpolation of an
`int`). -/
def natToStr (n : Nat) : Str :=
  if n = 0 then chars "0" else natDigitsAux (n + 1) n

/-! ### Association-list primitives (model of Python `dict` operations) -/

/-- First-match lookup in an association list (Python `d[k]` / `k in d`). -/
def lookupA {α : Type} : List (Str × α) → Str → Option α
  | [], _ => none
  | (k, v) :: rest, s => if k = s then some v else lookupA rest s

/-- Replace the value at the first entry with the given key (Python
`d[k] = v` when `k in d`). -/
def updateA {α : Type} : List (Str × α) → Str → α → List (Str × α)
  | [], _, _ => []
  | (k, w) :: rest, s, v =>
      if k = s then (k, v) :: rest else (k, w) :: updateA rest s v

/-- Keep the first defined value of two options. -/
def orO {α : Type} : Option α → Option α → Option α
  | some v, _ => some v
  | none, o => o

/-! ### The four platform tokens and their mappings -/

/-- The manifest / URL platform vocabulary. -/
def platformVocab : List Str :=
  [chars "net", chars "java", chars "nodejs-java", chars "python-net"]

/-- Model of `ProductValidator.get_platform_slug`: manifest platform key to URL slug,
via the literal `platform_map` dictionary with the key itself as default. -/
def get_platform_slug (platform : Str) : Str :=
  (lookupA [(chars "net", chars "net"),
            (chars "java", chars "java"),
            (chars "nodejs-java", chars "nodejs"),
            (chars "python-net", chars "python")] platform).getD platform

/-- Normalisation of a URL platform token to the canonical platform name, as
performed inline in `find_individual_product_links` and
`validate_family_pages`. -/
def canonPlatform (platform_url : Str) : Str :=
  if platform_url = chars "python-net" then chars "python"
  else if platform_url = chars "nodejs-java" then chars "nodejs"
  else platform_url

/-- Inverse mapping used by `generate_json_output` (`platform_key_map` with
the manifest key as default). -/
def jsonKeyOf (platform : Str) : Str :=
  let platform_slug := get_platform_slug platform
  (lookupA [(chars "net", chars "net"),
            (chars "java", chars "java"),
            (chars "nodejs", chars "nodejs-java"),
            (chars "python", chars "python-net")] platform_slug).getD platform

/-! ### Href pattern matching (the two regular expressions of the source) -/

/-- Model of the anchored family-href pattern (one non-slash segment between
slashes) followed by extraction and lowering of the single path segment, as
in `find_product_family_links`. -/
def parseFamilyHref (href : Str) : Option Str :=
  match splitSlash href with
  | [[], seg, []] => if seg = [] then none else some (lowerStr seg)
  | _ => none

/-- Model of the leading-slash check together with the end-anchored search
for a segment followed by one of the four platform tokens, yielding the
lowered product segment and the raw platform token, as in
`find_individual_product_links` and `validate_family_pages`. -/
def parseProductHref (href : Str) : Option (Str × Str) :=
  if href.take 1 = ['/'] then
    match (splitSlash href).reverse with
    | [] :: tok :: seg :: _ :: _ =>
        if seg ≠ [] && (platformVocab.contains tok) then
          some (lowerStr seg, tok)
        else none
    | _ => none
  else none

/-! ### Product names: filtering, normalisation, variations -/

/-- Model of `ProductValidator.should_ignore_product`: CLI and UI products are
dropped. -/
def should_ignore_product (product_name : Str) : Bool :=
  let name_lower := lowerStr product_name
  endsWithS name_lower (chars "-cli") || endsWithS name_lower (chars ".ui") ||
    endsWithS name_lower (chars "-ui")

/-- A manifest platform map: platform key to version-or-null. -/
abbrev PlatMap := List (Str × Option Str)

/-- The manifest `versions` mapping: product name to platform map. -/
abbrev Manifest := List (Str × PlatMap)

/-- The filtering step of `ProductValidator.fetch_json` applied to a
successfully fetched `versions` mapping. -/
def fetchJsonFilter (all_products : Manifest) : Manifest :=
  all_products.filter (fun pp => ! should_ignore_product pp.1)

/-- Model of `ProductValidator.normalize_product_name`: remove `GroupDocs.`
occurrences, strip whitespace, lowercase, turn dots into hyphens. -/
def normalize_product_name (product_name : Str) : Str :=
  replaceChar '.' '-'
    (lowerStr (trimStr (replaceAll (chars "GroupDocs.") product_name)))

/-- Model of `ProductValidator.get_product_name_variations`: the normalized slug,
optionally followed by the slug without its `-ui` suffix, optionally
followed by the slug without its `-cli` suffix. -/
def get_product_name_variations (product_name : Str) : List Str :=
  let normalized := normalize_product_name product_name
  let variations := [normalized]
  let variations :=
    if endsWithS normalized (chars "-ui") then
      variations ++ [dropLastN normalized 3]
    else variations
  let variations :=
    if endsWithS normalized (chars "-cli") then
      variations ++ [dropLastN normalized 4]
    else variations
  variations

/-! ### Link discovery on the landing page -/

/-- A parsed landing page: the anchors inside each
`<div class="product-item">` container, and every anchor of the page. -/
structure Page where
  productItems : List (List Str)
  allAnchors : List Str
deriving DecidableEq

/-- One step of `find_product_family_links`: record a family href under its
slug unless the slug is already present. -/
def stepFam (m : List (Str × Str)) (href : Str) : List (Str × Str) :=
  match parseFamilyHref href with
  | none => m
  | some product_name =>
      match lookupA m product_name with
      | some _ => m
      | none => m ++ [(product_name, href)]

/-- Model of `ProductValidator.find_product_family_links`: scan the anchors of each
product container, keeping the first href of shape `/<segment>/` per slug. -/
def find_product_family_links (page : Page) : List (Str × Str) :=
  page.productItems.foldl (fun m item => item.foldl stepFam m) []

/-- Nested map: product slug to (platform to href). -/
abbrev PLMap := List (Str × List (Str × Str))

/-- Nested lookup in a `PLMap`. -/
def lookup2 (m : PLMap) (s p : Str) : Option Str :=
  (lookupA m s).bind (fun sub => lookupA sub p)

/-- The nested-dict insertion of `find_individual_product_links`: create the
product entry if missing, then record the href unless the platform is
already present. -/
def insertPL (m : PLMap) (s p h : Str) : PLMap :=
  match lookupA m s with
  | none => m ++ [(s, [(p, h)])]
  | some sub =>
      match lookupA sub p with
      | some _ => m
      | none => updateA m s (sub ++ [(p, h)])

/-- One step of `find_individual_product_links`. -/
def stepPL (m : PLMap) (href : Str) : PLMap :=
  match parseProductHref href with
  | none => m
  | some (product_name, platform_url) =>
      insertPL m product_name (canonPlatform platform_url) href

/-- Model of `ProductValidator.find_individual_product_links`: scan every anchor of
the page for `/<segment>/<platform-token>/` hrefs, keeping the first href
per (slug, platform) pair. -/
def find_individual_product_links (anchors : List Str) : PLMap :=
  anchors.foldl stepPL []

/-- The first href among `anchors` that parses to the given slug and
canonical platform. -/
def firstLink : List Str → Str → Str → Option Str
  | [], _, _ => none
  | h :: rest, s, p =>
      match parseProductHref h with
      | some (s2, t) =>
          if s2 = s ∧ canonPlatform t = p then some h else firstLink rest s p
      | none => firstLink rest s p

/-- The first href among `anchors` of family shape with the given slug. -/
def firstFam : List Str → Str → Option Str
  | [], _ => none
  | h :: rest, s =>
      match parseFamilyHref h with
      | some s2 => if s2 = s then some h else firstFam rest s
      | none => firstFam rest s

/-! ### Errors

Each constructor corresponds to one `self.errors.append(...)` site of the
source, carrying the data interpolated into that format string. -/

/-- The entries of `self.errors`, one constructor per append site. -/
inductive VError where
  | fetchJson (msg : Str)
  | landingFetch (msg : Str)
  | landingStatus (code : Nat)
  | landingEmpty
  | missingFamily (product : Str) (tried : List Str)
  | missingPlatform (product platform : Str)
  | familyStatus (product : Str) (code : Nat) (url : Str)
  | familyEmpty (product : Str) (url : Str)
  | familyMissingPlatform (product platform expectedPath : Str)
  | familyException (product : Str) (msg : Str)
deriving DecidableEq

/-- The product an error is about, when it is a per-product error. -/
def VError.productOf : VError → Option Str
  | .missingFamily p _ => some p
  | .missingPlatform p _ => some p
  | .familyStatus p _ _ => some p
  | .familyEmpty p _ => some p
  | .familyMissingPlatform p _ _ => some p
  | .familyException p _ => some p
  | _ => none

/-! ### HTTP interaction model -/

/-- The fixed `self.base_url`. -/
def baseUrl : Str := chars "https://products.groupdocs.com"

/-- Join of the base URL with a root-relative href, as the source does for
every href matched by the two patterns. -/
def urljoinB (href : Str) : Str := baseUrl ++ href

/-- Outcome of a `requests.get` of a family page: a raised exception, or
status code, body text, and the anchors of the parsed body. -/
abbrev FamResp := Str → Except Str (Nat × Str × List Str)

/-- Outcome of a `requests.get` in `validate_link`: an exception or status
code and body text. -/
abbrev LiveResp := Str → Except Unit (Nat × Str)

/-- Model of `ProductValidator.validate_link`: `(status_code, is_valid)` with
`is_valid` true exactly for status 200 and a trimmed body of at least 100
characters; any exception yields `(0, false)`. -/
def validate_link (r : Except Unit (Nat × Str)) : Nat × Bool :=
  match r with
  | Except.error _ => (0, false)
  | Except.ok (status_code, content) =>
      (status_code,
       decide (status_code = 200) && decide (100 ≤ (trimStr content).length))

/-! ### Landing page validation -/

/-- Model of `ProductValidator.validate_landing_page_products`: per product, an error
if no slug variation has a family link, then one error per non-null
platform whose link was not discovered. -/
def validate_landing_page_products (data : Manifest) (page : Page) :
    List VError :=
  let family_links := find_product_family_links page
  let individual_links := find_individual_product_links page.allAnchors
  data.flatMap (fun pp =>
    let product_name := pp.1
    let variations := get_product_name_variations product_name
    let found_family :=
      variations.any (fun v => (lookupA family_links v).isSome)
    let famErr :=
      if found_family then []
      else [VError.missingFamily product_name variations]
    famErr ++ pp.2.filterMap (fun kv =>
      match kv.2 with
      | none => none
      | some _ =>
          let platform_slug := get_platform_slug kv.1
          let found_link :=
            variations.any (fun v =>
              (lookup2 individual_links v platform_slug).isSome)
          if found_link then none
          else some (VError.missingPlatform product_name kv.1)))

/-! ### Family page validation -/

/-- Dict assignment with overwrite (`found_platform_links[platform] = url`
in `validate_family_pages`). -/
def assignA (m : List (Str × Str)) (k v : Str) : List (Str × Str) :=
  match lookupA m k with
  | some _ => updateA m k v
  | none => m ++ [(k, v)]

/-- The platform links collected from the anchors of a family page,
restricted to the slug variations of the product itself. -/
def familyPagePlatformLinks (variations : List Str) (anchors : List Str) :
    List (Str × Str) :=
  anchors.foldl (fun m href =>
    match parseProductHref href with
    | none => m
    | some (found_product, platform_url) =>
        if found_product ∈ variations then
          assignA m (canonPlatform platform_url) (urljoinB href)
        else m) []

/-- The `expected_url_slug` computed for a missing-platform error on a
family page. -/
def expectedUrlSlug (platform : Str) : Str :=
  if platform = chars "python-net" then chars "python-net"
  else if platform = chars "nodejs-java" then chars "nodejs-java"
  else get_platform_slug platform

/-- The `/variations[0]/expected_url_slug/` path interpolated into a
family-page missing-platform error. -/
def expectedPathOf (variations : List Str) (platform : Str) : Str :=
  chars "/" ++ variations.headI ++ chars "/" ++ expectedUrlSlug platform ++
    chars "/"

/-- Resolution of the family URL of a product from the recorded family
links: the first slug variation with an entry. -/
def resolveFamilyUrl (family_links : List (Str × Str))
    (variations : List Str) : Option Str :=
  variations.findSome? (lookupA family_links)

/-- The body of the per-product loop of
`ProductValidator.validate_family_pages`: the errors recorded for one
product. -/
def validate_family_product (famResp : FamResp)
    (family_links : List (Str × Str)) (product_name : Str)
    (platforms : PlatMap) : List VError :=
  let variations := get_product_name_variations product_name
  match resolveFamilyUrl family_links variations with
  | none => []
  | some family_url =>
      match famResp family_url with
      | Except.error e => [VError.familyException product_name e]
      | Except.ok (status, content, anchors) =>
          if status ≠ 200 then
            [VError.familyStatus product_name status family_url]
          else if (trimStr content).length < 100 then
            [VError.familyEmpty product_name family_url]
          else
            let found_platform_links :=
              familyPagePlatformLinks variations anchors
            platforms.filterMap (fun kv =>
              match kv.2 with
              | none => none
              | some _ =>
                  let platform_slug := get_platform_slug kv.1
                  if (lookupA found_platform_links platform_slug).isSome then
                    none
                  else
                    some (VError.familyMissingPlatform product_name kv.1
                      (expectedPathOf variations kv.1)))

/-- Model of `ProductValidator.validate_family_pages` over all products. -/
def validate_family_pages (data : Manifest) (famResp : FamResp)
    (family_links : List (Str × Str)) : List VError :=
  data.flatMap (fun pp =>
    validate_family_product famResp family_links pp.1 pp.2)

/-! ### JSON output -/

/-- Lexicographic comparison of strings by code point (Python string
order, used by `sorted`). -/
def lexLeB : Str → Str → Bool
  | [], _ => true
  | _ :: _, [] => false
  | a :: as, b :: bs => if a = b then lexLeB as bs else decide (a < b)

/-- Sorted product names (`sorted(self.products_data.keys())`). -/
def sortedProductNames (data : Manifest) : List Str :=
  List.insertionSort (fun a b => lexLeB a b = true) (data.map Prod.fst)

/-- The platform URL resolved from the discovered product links: the first
slug variation carrying the platform. -/
def resolvePlatformUrl (product_links : PLMap) (variations : List Str)
    (platform_slug : Str) : Option Str :=
  variations.findSome? (fun v => lookup2 product_links v platform_slug)

/-- The per-product entry list built by
`ProductValidator.generate_json_output`: an optional `family` entry, then
one entry per non-null manifest platform, keyed through `platform_key_map`
and valued by the discovered URL or `null`. -/
def jsonProductEntry (family_url : Option Str) (platforms : PlatMap)
    (variations : List Str) (product_links : PLMap) :
    List (Str × Option Str) :=
  (match family_url with
   | some u => [(chars "family", some u)]
   | none => []) ++
  platforms.filterMap (fun kv =>
    match kv.2 with
    | none => none
    | some _ =>
        let platform_slug := get_platform_slug kv.1
        some (jsonKeyOf kv.1,
          resolvePlatformUrl product_links variations platform_slug))

/-- Model of `ProductValidator.generate_json_output`: the `links` object, keyed by
sorted product names. -/
def generate_json_output (data : Manifest) (family_links : List (Str × Str))
    (product_links : PLMap) : List (Str × List (Str × Option Str)) :=
  (sortedProductNames data).map (fun product_name =>
    let variations := get_product_name_variations product_name
    (product_name,
     jsonProductEntry (resolveFamilyUrl family_links variations)
       ((lookupA data product_name).getD []) variations product_links))

/-! ### Markdown report (the liveness-dependent table) -/

/-- A rendered table cell for a discovered URL: a checkmark link when the
fresh liveness probe succeeds, the raw status code otherwise. -/
def renderLinkCell (liveness : LiveResp) (url : Str) : Str :=
  let r := validate_link (liveness url)
  if r.2 then chars " [✓](" ++ url ++ chars ") |"
  else chars " [" ++ natToStr r.1 ++ chars "](" ++ url ++ chars ") |"

/-- Index of a platform in the preferred column order, 999 otherwise. -/
def platIdx (p : Str) : Nat :=
  if p = chars "net" then 0
  else if p = chars "java" then 1
  else if p = chars "nodejs" then 2
  else if p = chars "python" then 3
  else 999

/-- The column order of the report: preferred platforms first, the rest
alphabetically. -/
def platLe (a b : Str) : Bool :=
  if platIdx a = platIdx b then lexLeB a b else decide (platIdx a < platIdx b)

/-- The set of platform columns: platforms of discovered links plus the
slugs of every non-null manifest platform. -/
def collectPlatforms (data : Manifest) (product_links : PLMap) : List Str :=
  (product_links.flatMap (fun sp => sp.2.map Prod.fst) ++
   data.flatMap (fun pp => pp.2.filterMap (fun kv =>
     match kv.2 with
     | none => none
     | some _ => some (get_platform_slug kv.1)))).dedup

/-- The sorted platform columns of the Markdown table. -/
def sortedPlatforms (data : Manifest) (product_links : PLMap) : List Str :=
  List.insertionSort (fun a b => platLe a b = true)
    (collectPlatforms data product_links)

/-- One product row of the Markdown table. -/
def reportRow (liveness : LiveResp) (family_links : List (Str × Str))
    (product_links : PLMap) (plats : List Str) (product_name : Str) : Str :=
  let variations := get_product_name_variations product_name
  let famCell :=
    match resolveFamilyUrl family_links variations with
    | some url => renderLinkCell liveness url
    | none => chars " |"
  let platCells := plats.flatMap (fun platform =>
    match resolvePlatformUrl product_links variations platform with
    | some url => renderLinkCell liveness url
    | none => chars " |")
  chars "| " ++ product_name ++ chars " |" ++ famCell ++ platCells

/-- The product rows of the table written by
`ProductValidator.generate_markdown_report` (one row per manifest product,
sorted by name). -/
def reportTableRows (liveness : LiveResp) (data : Manifest)
    (family_links : List (Str × Str)) (product_links : PLMap) : List Str :=
  (sortedProductNames data).map
    (reportRow liveness family_links product_links
      (sortedPlatforms data product_links))

/-! ### The run pipeline and the process exit code -/

/-- Outcome of fetching and parsing the landing page: an exception, or
status code, body text and parsed page. -/
abbrev LandingResp := Except Str (Nat × Str × Page)

/-- The environment of one run: the outcome of each external HTTP
interaction. -/
structure World where
  manifestResp : Except Str Manifest
  landingResp : LandingResp
  familyResp : FamResp
  livenessResp : LiveResp

/-- Model of `ProductValidator.parse_landing_page`: the parsed page when the fetch
succeeded with status 200 and a non-trivial body, together with the errors
recorded otherwise. -/
def parse_landing_page (r : LandingResp) : Option Page × List VError :=
  match r with
  | Except.error e => (none, [VError.landingFetch e])
  | Except.ok (status, content, page) =>
      if status ≠ 200 then (none, [VError.landingStatus status])
      else if (trimStr content).length < 100 then (none, [VError.landingEmpty])
      else (some page, [])

/-- The observable result of `ProductValidator.run` plus the exit of `main`. -/
structure RunResult where
  errors : List VError
  success : Bool
  ranValidation : Bool
  reportRows : List Str
  jsonLinks : List (Str × List (Str × Option Str))

/-- Model of `ProductValidator.run`: fetch the manifest (aborting when the filtered
product map is falsy), parse the landing page (aborting on failure), then
validate, and generate the two reports. -/
def run (w : World) : RunResult :=
  match w.manifestResp with
  | Except.error e => RunResult.mk [VError.fetchJson e] false false [] []
  | Except.ok all_products =>
      let data := fetchJsonFilter all_products
      if data = [] then RunResult.mk [] false false [] []
      else
        match parse_landing_page w.landingResp with
        | (none, errs) => RunResult.mk errs false false [] []
        | (some page, errs) =>
            let family_rel := find_product_family_links page
            let family_full := family_rel.map (fun e => (e.1, urljoinB e.2))
            let product_rel := find_individual_product_links page.allAnchors
            let product_full := product_rel.map (fun e =>
              (e.1, e.2.map (fun pv => (pv.1, urljoinB pv.2))))
            let errs2 := validate_landing_page_products data page
            let errs3 := validate_family_pages data w.familyResp family_full
            let allErrs := errs ++ errs2 ++ errs3
            RunResult.mk allErrs allErrs.isEmpty true
              (reportTableRows w.livenessResp data family_full product_full)
              (generate_json_output data family_full product_full)

/-- Model of `main`: exit 0 on success and 1 otherwise. -/
def mainExitCode (w : World) : Nat :=
  if (run w).success then 0 else 1

/-- The filtered product map the manifest of a world yields (empty when the
manifest fetch fails). -/
def filteredData (w : World) : Manifest :=
  match w.manifestResp with
  | Except.error _ => []
  | Except.ok all_products => fetchJsonFilter all_products

/-! ### Specification-side definitions and concrete inputs -/

/-- The normalisation step as the specification words it: strip the literal
prefix `GroupDocs.` when present, lowercase, replace dots by hyphens.
Stated from the specification text, for comparison with
`normalize_product_name`. -/
def specStripPrefixNormalize (product_name : Str) : Str :=
  let name :=
    if (chars "GroupDocs.").isPrefixOf product_name then
      product_name.drop (chars "GroupDocs.").length
    else product_name
  replaceChar '.' '-' (lowerStr name)

/-- A small concrete manifest used by witnesses. -/
def demoManifest : Manifest :=
  [(chars "GroupDocs.Total",
    [(chars "net", some (chars "24-1")), (chars "java", some (chars "24-1")),
     (chars "python-net", none)]),
   (chars "GroupDocs.Viewer-UI", [(chars "net", some (chars "24-1"))])]

/-- A small concrete landing page used by witnesses. -/
def demoPage : Page :=
  Page.mk [[chars "/total/", chars "/total/net/"]]
    [chars "/total/", chars "/total/net/"]

/-- A world whose manifest is fetched successfully but holds no products. -/
def demoWorldEmptyManifest : World :=
  World.mk (Except.ok []) (Except.error (chars "down"))
    (fun _ => Except.error (chars "down")) (fun _ => Except.error ())

/-- A world whose manifest fetch raises. -/
def demoWorldManifestFail : World :=
  World.mk (Except.error (chars "timeout")) (Except.error (chars "down"))
    (fun _ => Except.error (chars "down")) (fun _ => Except.error ())

/-- A family-page fetch outcome that always raises. -/
def demoFamResp : FamResp := fun _ => Except.error (chars "refused")

/-- Family links as recorded for `demoPage`. -/
def demoFamilyLinks : List (Str × Str) :=
  [(chars "total", urljoinB (chars "/total/"))]

/-! ### Association-list lemmas -/

@[simp] theorem orO_some_left {α : Type} (v : α) (o : Option α) :
    orO (some v) o = some v := rfl

@[simp] theorem orO_none_left {α : Type} (o : Option α) : orO none o = o := rfl

@[simp] theorem orO_none_right {α : Type} (o : Option α) : orO o none = o := by
  cases o <;> rfl

theorem orO_assoc {α : Type} (a b c : Option α) :
    orO (orO a b) c = orO a (orO b c) := by
  cases a <;> rfl

theorem lookupA_append {α : Type} (l1 l2 : List (Str × α)) (s : Str) :
    lookupA (l1 ++ l2) s = orO (lookupA l1 s) (lookupA l2 s) := by
  induction l1 with
  | nil => simp [lookupA]
  | cons kv rest ih =>
      obtain ⟨k, v⟩ := kv
      by_cases h : k = s <;> simp [lookupA, h, ih]

theorem lookupA_updateA_ne {α : Type} (m : List (Str × α)) (s t : Str) (v : α)
    (h : t ≠ s) : lookupA (updateA m s v) t = lookupA m t := by
  induction m with
  | nil => rfl
  | cons kv rest ih =>
      obtain ⟨k, w⟩ := kv
      show lookupA (if k = s then (k, v) :: rest else (k, w) :: updateA rest s v) t = _
      by_cases hk : k = s
      · rw [if_pos hk]
        have hkt : ¬(k = t) := fun hh => h (by rw [← hh]; exact hk)
        simp [lookupA, hkt]
      · rw [if_neg hk]
        simp [lookupA, ih]

theorem lookupA_updateA_self {α : Type} (m : List (Str × α)) (s : Str) (v : α)
    (h : (lookupA m s).isSome = true) : lookupA (updateA m s v) s = some v := by
  induction m with
  | nil => simp [lookupA] at h
  | cons kv rest ih =>
      obtain ⟨k, w⟩ := kv
      by_cases hk : k = s
      · simp [updateA, lookupA, hk]
      · simp only [lookupA, if_neg hk] at h
        simp [updateA, lookupA, hk, ih h]

theorem mem_assoc_nodup_eq {α : Type} {l : List (Str × α)}
    (hnd : (l.map Prod.fst).Nodup) {k : Str} {a b : α}
    (ha : (k, a) ∈ l) (hb : (k, b) ∈ l) : a = b := by
  induction l with
  | nil => cases ha
  | cons kv rest ih =>
      obtain ⟨k0, v0⟩ := kv
      rw [List.map_cons] at hnd
      obtain ⟨hk, hrest⟩ := List.nodup_cons.mp hnd
      rcases List.mem_cons.mp ha with ha1 | ha2 <;>
        rcases List.mem_cons.mp hb with hb1 | hb2
      · cases ha1
        injection hb1 with h1 h2
        exact h2.symm
      · cases ha1
        exact absurd (List.mem_map_of_mem Prod.fst hb2) hk
      · cases hb1
        exact absurd (List.mem_map_of_mem Prod.fst ha2) hk
      · exact ih hrest ha2 hb2

/-! ### Characterization of the landing-page link discovery -/

theorem lookup2_insertPL (m : PLMap) (s2 p2 h s p : Str) :
    lookup2 (insertPL m s2 p2 h) s p =
      if s = s2 ∧ p = p2 then orO (lookup2 m s p) (some h)
      else lookup2 m s p := by
  cases hm : lookupA m s2 with
  | none =>
      have hi : insertPL m s2 p2 h = m ++ [(s2, [(p2, h)])] := by
        unfold insertPL; rw [hm]
      rw [hi]
      unfold lookup2
      rw [lookupA_append]
      by_cases hs : s = s2
      · subst hs
        rw [hm]
        simp only [lookupA, if_pos rfl, orO_none_left, Option.bind_some,
          Option.bind_none]
        by_cases hp : p = p2
        · simp [lookupA, hp]
        · have : ¬(p2 = p) := fun hh => hp (hh ▸ rfl)
          simp [lookupA, this, hp]
      · have : ¬(s2 = s) := fun hh => hs (hh ▸ rfl)
        simp [lookupA, this, hs]
  | some sub =>
      cases hsub : lookupA sub p2 with
      | some v0 =>
          have hi : insertPL m s2 p2 h = m := by
            unfold insertPL; rw [hm]; dsimp only; rw [hsub]
          rw [hi]
          by_cases hc : s = s2 ∧ p = p2

          · obtain ⟨rfl, rfl⟩ := hc
            simp [lookup2, hm, hsub]
          · simp [hc]
      | none =>
          have hi : insertPL m s2 p2 h = updateA m s2 (sub ++ [(p2, h)]) := by
            unfold insertPL; rw [hm]; dsimp only; rw [hsub]
          rw [hi]
          by_cases hs : s = s2
          · subst hs
            unfold lookup2
            rw [lookupA_updateA_self m s _ (by simp [hm]), hm]
            simp only [Option.some_bind]
            rw [lookupA_append]
            by_cases hp : p = p2
            · subst hp; simp [lookupA, hsub]
            · have : ¬(p2 = p) := fun hh => hp (hh ▸ rfl)
              simp [lookupA, this, hp]
          · unfold lookup2
            rw [lookupA_updateA_ne m s2 s _ hs]
            simp [hs]

theorem lookup2_foldl_stepPL (as : List Str) (m : PLMap) (s p : Str) :
    lookup2 (as.foldl stepPL m) s p = orO (lookup2 m s p) (firstLink as s p) := by
  induction as generalizing m with
  | nil => simp [firstLink]
  | cons a rest ih =>
      rw [List.foldl_cons, ih]
      cases hp : parseProductHref a with
      | none => simp only [stepPL, firstLink, hp]
      | some st =>
          obtain ⟨s2, t⟩ := st
          simp only [stepPL, firstLink, hp]
          rw [lookup2_insertPL]
          by_cases hc : s = s2 ∧ p = canonPlatform t

          · obtain ⟨rfl, rfl⟩ := hc
            simp [orO_assoc]

          · rw [if_neg hc]
            have h2 : ¬(s2 = s ∧ canonPlatform t = p) := fun hh =>
              hc ⟨hh.1.symm, hh.2.symm⟩
            rw [if_neg h2]

theorem find_individual_lookup2 (anchors : List Str) (s p : Str) :
    lookup2 (find_individual_product_links anchors) s p =
      firstLink anchors s p := by
  unfold find_individual_product_links
  rw [lookup2_foldl_stepPL]
  rfl

theorem firstLink_isSome_iff (anchors : List Str) (s p : Str) :
    (firstLink anchors s p).isSome = true ↔
      ∃ h ∈ anchors, ∃ t, parseProductHref h = some (s, t) ∧
        canonPlatform t = p := by
  induction anchors with
  | nil => simp [firstLink]
  | cons a rest ih =>
      cases hp : parseProductHref a with
      | none =>
          simp only [firstLink, hp]
          rw [ih]
          constructor
          · rintro ⟨h2, hm, t, hpt, hct⟩
            exact ⟨h2, List.mem_cons_of_mem a hm, t, hpt, hct⟩
          · rintro ⟨h2, hm, t, hpt, hct⟩
            rcases List.mem_cons.mp hm with rfl | hm2
            · rw [hp] at hpt; cases hpt
            · exact ⟨h2, hm2, t, hpt, hct⟩
      | some st =>
          obtain ⟨s2, t0⟩ := st
          simp only [firstLink, hp]
          by_cases hc : s2 = s ∧ canonPlatform t0 = p
          · rw [if_pos hc]
            simp only [Option.isSome_some, true_iff]
            exact ⟨a, List.mem_cons_self a rest, t0, by rw [← hc.1]; exact hp, hc.2⟩
          · rw [if_neg hc, ih]
            constructor
            · rintro ⟨h2, hm, t, hpt, hct⟩
              exact ⟨h2, List.mem_cons_of_mem a hm, t, hpt, hct⟩
            · rintro ⟨h2, hm, t, hpt, hct⟩
              rcases List.mem_cons.mp hm with rfl | hm2
              · rw [hp] at hpt
                have h1 := Option.some.inj hpt
                have hs2 : s2 = s := congrArg Prod.fst h1
                have ht0 : t0 = t := congrArg Prod.snd h1
                exact absurd ⟨hs2, ht0 ▸ hct⟩ hc
              · exact ⟨h2, hm2, t, hpt, hct⟩

/-! ### Characterization of the family-link discovery -/

theorem lookupA_foldl_stepFam (as : List Str) (m : List (Str × Str)) (s : Str) :
    lookupA (as.foldl stepFam m) s = orO (lookupA m s) (firstFam as s) := by
  induction as generalizing m with
  | nil => simp [firstFam]
  | cons a rest ih =>
      rw [List.foldl_cons, ih]
      cases hp : parseFamilyHref a with
      | none => simp only [stepFam, firstFam, hp]
      | some s2 =>
          simp only [stepFam, firstFam, hp]
          cases hl : lookupA m s2 with
          | some v =>
              by_cases hs : s2 = s
              · subst hs; rw [hl]; rfl
              · rw [if_neg hs]
          | none =>
              rw [lookupA_append]
              by_cases hs : s2 = s
              · subst hs
                rw [hl, if_pos rfl]
                simp [lookupA, orO_assoc]
              · rw [if_neg hs]
                have h2 : ¬(s2 = s) := hs
                simp [lookupA, h2, orO_assoc]

theorem foldl_stepFam_join (items : List (List Str)) (m : List (Str × Str)) :
    items.foldl (fun acc item => item.foldl stepFam acc) m =
      items.flatten.foldl stepFam m := by
  induction items generalizing m with
  | nil => rfl
  | cons item rest ih => simp [List.foldl_append, ih]

theorem find_family_lookupA (page : Page) (s : Str) :
    lookupA (find_product_family_links page) s =
      firstFam page.productItems.flatten s := by
  unfold find_product_family_links
  rw [foldl_stepFam_join, lookupA_foldl_stepFam]
  rfl

theorem firstFam_isSome_iff (anchors : List Str) (s : Str) :
    (firstFam anchors s).isSome = true ↔
      ∃ h ∈ anchors, parseFamilyHref h = some s := by
  induction anchors with
  | nil => simp [firstFam]
  | cons a rest ih =>
      cases hp : parseFamilyHref a with
      | none =>
          simp only [firstFam, hp]
          rw [ih]
          constructor
          · rintro ⟨h2, hm, hps⟩
            exact ⟨h2, List.mem_cons_of_mem a hm, hps⟩
          · rintro ⟨h2, hm, hps⟩
            rcases List.mem_cons.mp hm with rfl | hm2
            · rw [hp] at hps; cases hps
            · exact ⟨h2, hm2, hps⟩
      | some s2 =>
          simp only [firstFam, hp]
          by_cases hs : s2 = s
          · subst hs
            rw [if_pos rfl]
            simp only [Option.isSome_some, true_iff]
            exact ⟨a, List.mem_cons_self a rest, hp⟩
          · rw [if_neg hs, ih]
            constructor
            · rintro ⟨h2, hm, hps⟩
              exact ⟨h2, List.mem_cons_of_mem a hm, hps⟩
            · rintro ⟨h2, hm, hps⟩
              rcases List.mem_cons.mp hm with rfl | hm2
              · rw [hp] at hps
                exact absurd (Option.some.inj hps) hs
              · exact ⟨h2, hm2, hps⟩


/-! ### Name-normalisation lemmas -/

theorem not_endsWith_ui_and_cli (s : Str) :
    ¬(endsWithS s (chars "-ui") = true ∧ endsWithS s (chars "-cli") = true) := by
  rintro ⟨h1, h2⟩
  have e1 : s.reverse.take (chars "-ui").length = (chars "-ui").reverse :=
    of_decide_eq_true h1
  have e2 : s.reverse.take (chars "-cli").length = (chars "-cli").reverse :=
    of_decide_eq_true h2
  have l3 : (chars "-ui").length = 3 := rfl
  have l4 : (chars "-cli").length = 4 := rfl
  rw [l3] at e1
  rw [l4] at e2
  have h34 : (3 : Nat) ⊓ 4 = 3 := rfl
  have ht := List.take_take 3 4 s.reverse
  rw [h34] at ht
  rw [e2, e1] at ht
  exact absurd ht (by decide)

/-- C10: the variation list is never empty, has at most two entries, and its
head is the normalized name, so the expression taking the head of the
variations in the source is always defined. -/
theorem claim_C10_variations_invariant (product_name : Str) :
    get_product_name_variations product_name ≠ [] ∧
    (get_product_name_variations product_name).length ≤ 2 ∧
    (get_product_name_variations product_name).head? =
      some (normalize_product_name product_name) := by
  unfold get_product_name_variations
  by_cases h1 : endsWithS (normalize_product_name product_name) (chars "-ui") = true
  · by_cases h2 :
      endsWithS (normalize_product_name product_name) (chars "-cli") = true
    · exact absurd ⟨h1, h2⟩ (not_endsWith_ui_and_cli _)
    · simp [h1, h2]
  · by_cases h2 :
      endsWithS (normalize_product_name product_name) (chars "-cli") = true
    · simp [h1, h2]
    · simp [h1, h2]

/-- C3 as stated fails on names with an interior occurrence of the prefix:
`normalize_product_name` removes every occurrence of `GroupDocs.`, which
differs from stripping a leading prefix. -/
theorem claim_C3_counterexample :
    normalize_product_name (chars "GroupDocs.GroupDocs.Total") = chars "total" ∧
    specStripPrefixNormalize (chars "GroupDocs.GroupDocs.Total") =
      chars "groupdocs-total" ∧
    normalize_product_name (chars "GroupDocs.GroupDocs.Total") ≠
      specStripPrefixNormalize (chars "GroupDocs.GroupDocs.Total") := by
  decide

/-- C3 amended: `normalize_product_name` removes every occurrence of
`GroupDocs.` and trims whitespace before lowercasing and dot replacement;
the variation list is the slug, then its `-ui`-stripped (resp.
`-cli`-stripped) form when that suffix is present; the two quoted examples
hold. -/
theorem claim_C3_normalization (product_name : Str) :
    normalize_product_name product_name =
      replaceChar '.' '-' (lowerStr (trimStr
        (replaceAll (chars "GroupDocs.") product_name))) ∧
    (endsWithS (normalize_product_name product_name) (chars "-ui") = true →
      get_product_name_variations product_name =
        [normalize_product_name product_name,
         dropLastN (normalize_product_name product_name) 3]) ∧
    (endsWithS (normalize_product_name product_name) (chars "-cli") = true →
      get_product_name_variations product_name =
        [normalize_product_name product_name,
         dropLastN (normalize_product_name product_name) 4]) ∧
    (endsWithS (normalize_product_name product_name) (chars "-ui") = false →
      endsWithS (normalize_product_name product_name) (chars "-cli") = false →
      get_product_name_variations product_name =
        [normalize_product_name product_name]) ∧
    get_product_name_variations (chars "GroupDocs.Conversion") =
      [chars "conversion"] ∧
    get_product_name_variations (chars "GroupDocs.Editor-UI") =
      [chars "editor-ui", chars "editor"] := by
  refine ⟨rfl, ?_, ?_, ?_, by decide, by decide⟩
  · intro h1
    have h2 :
        ¬(endsWithS (normalize_product_name product_name) (chars "-cli") = true) :=
      fun h2 => not_endsWith_ui_and_cli _ ⟨h1, h2⟩
    unfold get_product_name_variations
    simp [h1, h2]
  · intro h2
    have h1 :
        ¬(endsWithS (normalize_product_name product_name) (chars "-ui") = true) :=
      fun h1 => not_endsWith_ui_and_cli _ ⟨h1, h2⟩
    unfold get_product_name_variations
    simp [h1, h2]
  · intro h1 h2
    unfold get_product_name_variations
    simp [h1, h2]

/-- Witness for the amended C3 at a concrete input. -/
theorem claim_C3_normalization_witness :
    get_product_name_variations (chars "GroupDocs.Editor-UI") =
      [normalize_product_name (chars "GroupDocs.Editor-UI"),
       dropLastN (normalize_product_name (chars "GroupDocs.Editor-UI")) 3] :=
  (claim_C3_normalization (chars "GroupDocs.Editor-UI")).2.1 (by decide)

/-! ### Error provenance lemmas -/

theorem landing_error_product (data : Manifest) (page : Page) (e : VError)
    (he : e ∈ validate_landing_page_products data page) :
    ∃ q ∈ data.map Prod.fst, e.productOf = some q := by
  unfold validate_landing_page_products at he
  rw [List.mem_flatMap] at he
  obtain ⟨pp, hpp, hin⟩ := he
  refine ⟨pp.1, List.mem_map_of_mem Prod.fst hpp, ?_⟩
  rcases List.mem_append.mp hin with h | h
  · split at h
    · cases h
    · rcases List.mem_singleton.mp h with rfl
      rfl
  · rw [List.mem_filterMap] at h
    obtain ⟨kv, hkv, hf⟩ := h
    rcases hv : kv.2 with _ | ver
    · rw [hv] at hf; cases hf
    · rw [hv] at hf
      dsimp only at hf
      split at hf
      · cases hf
      · cases Option.some.inj hf
        rfl

theorem family_error_product (data : Manifest) (famResp : FamResp)
    (family_links : List (Str × Str)) (e : VError)
    (he : e ∈ validate_family_pages data famResp family_links) :
    ∃ q ∈ data.map Prod.fst, e.productOf = some q := by
  unfold validate_family_pages at he
  rw [List.mem_flatMap] at he
  obtain ⟨pp, hpp, hin⟩ := he
  refine ⟨pp.1, List.mem_map_of_mem Prod.fst hpp, ?_⟩
  unfold validate_family_product at hin
  dsimp only at hin
  cases hr :
      resolveFamilyUrl family_links (get_product_name_variations pp.1) with
  | none => rw [hr] at hin; cases hin
  | some url =>
      rw [hr] at hin
      dsimp only at hin
      cases hf : famResp url with
      | error msg =>
          rw [hf] at hin
          rcases List.mem_singleton.mp hin with rfl
          rfl
      | ok trip =>
          rw [hf] at hin
          obtain ⟨st, content, anchors⟩ := trip
          dsimp only at hin
          split at hin
          · rcases List.mem_singleton.mp hin with rfl
            rfl
          · split at hin
            · rcases List.mem_singleton.mp hin with rfl
              rfl
            · rw [List.mem_filterMap] at hin
              obtain ⟨kv, hkv, hfm⟩ := hin
              rcases hv : kv.2 with _ | ver
              · rw [hv] at hfm; cases hfm
              · rw [hv] at hfm
                dsimp only at hfm
                split at hfm
                · cases hfm
                · cases Option.some.inj hfm
                  rfl

/-- C4: a product whose raw name ends in "-cli", ".ui" or "-ui"
(case-insensitively) is filtered out of the product map at manifest-load
time and therefore appears in no error, no report row and no JSON entry. -/
theorem claim_C4_cli_ui_filtered (product_name : Str)
    (h : endsWithS (lowerStr product_name) (chars "-cli") = true ∨
         endsWithS (lowerStr product_name) (chars ".ui") = true ∨
         endsWithS (lowerStr product_name) (chars "-ui") = true) :
    should_ignore_product product_name = true ∧
    (∀ all_products : Manifest,
      product_name ∉ (fetchJsonFilter all_products).map Prod.fst) ∧
    (∀ all_products page e,
      e ∈ validate_landing_page_products (fetchJsonFilter all_products) page →
      e.productOf ≠ some product_name) ∧
    (∀ all_products famResp family_links e,
      e ∈ validate_family_pages (fetchJsonFilter all_products) famResp
            family_links →
      e.productOf ≠ some product_name) ∧
    (∀ all_products : Manifest,
      product_name ∉ sortedProductNames (fetchJsonFilter all_products)) ∧
    (∀ all_products family_links product_links,
      product_name ∉ (generate_json_output (fetchJsonFilter all_products)
        family_links product_links).map Prod.fst) := by
  have hignore : should_ignore_product product_name = true := by
    unfold should_ignore_product
    rcases h with h | h | h <;> simp [h]
  have hkey : ∀ all_products : Manifest,
      product_name ∉ (fetchJsonFilter all_products).map Prod.fst := by
    intro all hmem
    rw [List.mem_map] at hmem
    obtain ⟨pp, hpp, hfst⟩ := hmem
    have hflt := (List.mem_filter.mp hpp).2
    rw [hfst, hignore] at hflt
    cases hflt
  refine ⟨hignore, hkey, ?_, ?_, ?_, ?_⟩
  · intro all page e he heq
    obtain ⟨q, hq, hpe⟩ := landing_error_product _ page e he
    rw [heq] at hpe
    exact hkey all (Option.some.inj hpe ▸ hq)
  · intro all famResp family_links e he heq
    obtain ⟨q, hq, hpe⟩ := family_error_product _ famResp family_links e he
    rw [heq] at hpe
    exact hkey all (Option.some.inj hpe ▸ hq)
  · intro all hmem
    unfold sortedProductNames at hmem
    rw [List.mem_insertionSort] at hmem
    exact hkey all hmem
  · intro all family_links product_links hmem
    rw [List.mem_map] at hmem
    obtain ⟨pp, hpp, hfst⟩ := hmem
    unfold generate_json_output at hpp
    rw [List.mem_map] at hpp
    obtain ⟨q, hq, hqe⟩ := hpp
    have : q = product_name := by rw [← hfst, ← hqe]
    rw [this] at hq
    unfold sortedProductNames at hq
    rw [List.mem_insertionSort] at hq
    exact hkey all hq

/-- Witness for C4 at a concrete ignored product. -/
theorem claim_C4_witness :
    should_ignore_product (chars "GroupDocs.Viewer-UI") = true ∧
    chars "GroupDocs.Viewer-UI" ∉ (fetchJsonFilter demoManifest).map Prod.fst :=
  ⟨(claim_C4_cli_ui_filtered (chars "GroupDocs.Viewer-UI")
      (Or.inr (Or.inr (by decide)))).1,
   (claim_C4_cli_ui_filtered (chars "GroupDocs.Viewer-UI")
      (Or.inr (Or.inr (by decide)))).2.1 demoManifest⟩

/-! ### Shape of the family-href pattern -/

theorem splitSlash_ne_nil (s : Str) : splitSlash s ≠ [] := by
  cases s with
  | nil => simp [splitSlash]
  | cons c cs =>
      unfold splitSlash
      cases h : splitSlash cs with
      | nil => simp
      | cons p ps => by_cases hc : c = '/' <;> simp [hc]

theorem splitSlash_eq_single_nil {s : Str} (h : splitSlash s = [[]]) :
    s = [] := by
  cases s with
  | nil => rfl
  | cons c cs =>
      exfalso
      unfold splitSlash at h
      cases hcs : splitSlash cs with
      | nil => exact splitSlash_ne_nil cs hcs
      | cons p ps =>
          rw [hcs] at h
          dsimp only at h
          by_cases hc : c = '/'
          · rw [if_pos hc] at h
            injection h with h1 h2
            cases h2
          · rw [if_neg hc] at h
            injection h with h1 h2
            cases h1

theorem splitSlash_pair {s seg : Str} (h : splitSlash s = [seg, []]) :
    s = seg ++ ['/'] ∧ '/' ∉ seg := by
  induction s generalizing seg with
  | nil => simp [splitSlash] at h
  | cons c cs ih =>
      unfold splitSlash at h
      cases hcs : splitSlash cs with
      | nil => exact absurd hcs (splitSlash_ne_nil cs)
      | cons p ps =>
          rw [hcs] at h
          dsimp only at h
          by_cases hc : c = '/'
          · rw [if_pos hc] at h
            injection h with h1 h2
            injection h2 with h3 h4
            have hcs0 : splitSlash cs = [[]] := by rw [hcs, h3, h4]
            have hcs1 := splitSlash_eq_single_nil hcs0
            subst hcs1
            subst hc
            refine ⟨by rw [← h1]; rfl, ?_⟩
            rw [← h1]
            simp
          · rw [if_neg hc] at h
            injection h with h1 h2
            have hp : splitSlash cs = [p, []] := by rw [hcs, h2]
            obtain ⟨hcs2, hnp⟩ := ih hp
            subst h1
            constructor
            · rw [hcs2]; rfl
            · intro hmem
              rcases List.mem_cons.mp hmem with hm | hm
              · exact hc hm.symm
              · exact hnp hm

theorem splitSlash_triple {s seg : Str} (h : splitSlash s = [[], seg, []]) :
    s = '/' :: (seg ++ ['/']) ∧ '/' ∉ seg := by
  cases s with
  | nil => simp [splitSlash] at h
  | cons c cs =>
      unfold splitSlash at h
      cases hcs : splitSlash cs with
      | nil => exact absurd hcs (splitSlash_ne_nil cs)
      | cons p ps =>
          rw [hcs] at h
          dsimp only at h
          by_cases hc : c = '/'
          · rw [if_pos hc] at h
            injection h with h1 h2
            have hcs2 : splitSlash cs = [seg, []] := by rw [hcs, h2]
            obtain ⟨hcs3, hnp⟩ := splitSlash_pair hcs2
            subst hc
            exact ⟨by rw [hcs3], hnp⟩
          · rw [if_neg hc] at h
            injection h with h1 h2
            cases h1

theorem splitSlash_append_slash {seg : Str} (h : '/' ∉ seg) :
    splitSlash (seg ++ ['/']) = [seg, []] := by
  induction seg with
  | nil => rfl
  | cons c cs ih =>
      have hc : ¬(c = '/') := by
        intro hh
        subst hh
        exact h (List.mem_cons_self _ _)
      have hmem : '/' ∉ cs := fun hm => h (List.mem_cons_of_mem c hm)
      show splitSlash (c :: (cs ++ ['/'])) = [c :: cs, []]
      unfold splitSlash
      rw [ih hmem]
      simp [hc]

/-- C8: family links are searched only within the product containers, an
href is accepted exactly when it is one non-slash segment bounded by
slashes, and the first occurrence per slug wins. -/
theorem claim_C8_family_links :
    (∀ p1 p2 : Page, p1.productItems = p2.productItems →
      find_product_family_links p1 = find_product_family_links p2) ∧
    (∀ page s, lookupA (find_product_family_links page) s =
      firstFam page.productItems.flatten s) ∧
    (∀ href, (parseFamilyHref href).isSome = true ↔
      ∃ seg : Str, seg ≠ [] ∧ '/' ∉ seg ∧ href = '/' :: (seg ++ ['/'])) := by
  refine ⟨?_, find_family_lookupA, ?_⟩
  · intro p1 p2 h
    unfold find_product_family_links
    rw [h]
  · intro href
    constructor
    · intro h
      unfold parseFamilyHref at h
      split at h
      · rename_i seg heq
        split at h
        · cases h
        · rename_i hseg
          obtain ⟨hshape, hnp⟩ := splitSlash_triple heq
          exact ⟨seg, hseg, hnp, hshape⟩
      · cases h
    · rintro ⟨seg, hseg, hnp, rfl⟩
      unfold parseFamilyHref
      have hs : splitSlash ('/' :: (seg ++ ['/'])) = [[], seg, []] := by
        unfold splitSlash
        rw [splitSlash_append_slash hnp]
        simp
      rw [hs]
      simp [hseg]

/-- C5: the platform-token mapping of `find_individual_product_links` and
its first-occurrence-per-pair storage. -/
theorem claim_C5_individual_links :
    (∀ anchors s p, lookup2 (find_individual_product_links anchors) s p =
      firstLink anchors s p) ∧
    canonPlatform (chars "python-net") = chars "python" ∧
    canonPlatform (chars "nodejs-java") = chars "nodejs" ∧
    canonPlatform (chars "net") = chars "net" ∧
    canonPlatform (chars "java") = chars "java" ∧
    parseProductHref (chars "/total/python-net/") =
      some (chars "total", chars "python-net") ∧
    parseProductHref (chars "/total/nodejs-java/") =
      some (chars "total", chars "nodejs-java") ∧
    lookup2 (find_individual_product_links
        [chars "/total/net/", chars "/x/total/net/"])
      (chars "total") (chars "net") = some (chars "/total/net/") := by
  refine ⟨find_individual_lookup2, ?_⟩
  decide

/-! ### C1: landing-page platform errors -/

theorem found_link_iff (anchors : List Str) (q slug : Str) :
    ((get_product_name_variations q).any (fun v =>
      (lookup2 (find_individual_product_links anchors) v slug).isSome)) = true ↔
    ∃ href ∈ anchors, ∃ v t, v ∈ get_product_name_variations q ∧
      parseProductHref href = some (v, t) ∧ canonPlatform t = slug := by
  rw [List.any_eq_true]
  constructor
  · rintro ⟨v, hvmem, hsome⟩
    rw [find_individual_lookup2] at hsome
    obtain ⟨href, hh, t, hpt, hct⟩ :=
      (firstLink_isSome_iff anchors v slug).mp hsome
    exact ⟨href, hh, v, t, hvmem, hpt, hct⟩
  · rintro ⟨href, hh, v, t, hvmem, hpt, hct⟩
    refine ⟨v, hvmem, ?_⟩
    rw [find_individual_lookup2]
    exact (firstLink_isSome_iff anchors v slug).mpr ⟨href, hh, t, hpt, hct⟩

/-- C1: for a manifest product and a platform with a non-null version, the
missing-platform error is recorded exactly when no anchor of the landing
page matches `/<variation>/<token>/` with the token mapping to that
slug of that platform. -/
theorem claim_C1_landing_platform_errors (data : Manifest) (page : Page)
    (p : Str) (plats : PlatMap) (k : Str) (ver : Str)
    (hp : (p, plats) ∈ data) (hv : (k, some ver) ∈ plats) :
    VError.missingPlatform p k ∈ validate_landing_page_products data page ↔
    ¬ ∃ href ∈ page.allAnchors, ∃ v t,
        v ∈ get_product_name_variations p ∧
        parseProductHref href = some (v, t) ∧
        canonPlatform t = get_platform_slug k := by
  rw [← found_link_iff page.allAnchors p (get_platform_slug k)]
  constructor
  · intro hmem hfound
    unfold validate_landing_page_products at hmem
    rw [List.mem_flatMap] at hmem
    obtain ⟨pp, hpp, hin⟩ := hmem
    dsimp only at hin
    rcases List.mem_append.mp hin with h | h
    · split at h
      · cases h
      · cases List.mem_singleton.mp h
    · rw [List.mem_filterMap] at h
      obtain ⟨kv, hkv, hf⟩ := h
      rcases hv2 : kv.2 with _ | ver2
      · rw [hv2] at hf; cases hf
      · rw [hv2] at hf
        dsimp only at hf
        split at hf
        · cases hf
        · rename_i hfound2
          have hinj := Option.some.inj hf
          injection hinj with h1 h2
          rw [h1, h2] at hfound2
          exact hfound2 hfound
  · intro hnf
    unfold validate_landing_page_products
    rw [List.mem_flatMap]
    refine ⟨(p, plats), hp, ?_⟩
    dsimp only
    rw [List.mem_append]
    right
    rw [List.mem_filterMap]
    refine ⟨(k, some ver), hv, ?_⟩
    dsimp only
    rw [if_neg hnf]

/-- Witness for C1: on the demo inputs, the recorded missing-java error
yields that no matching anchor exists. -/
theorem claim_C1_witness :
    ¬ ∃ href ∈ demoPage.allAnchors, ∃ v t,
        v ∈ get_product_name_variations (chars "GroupDocs.Total") ∧
        parseProductHref href = some (v, t) ∧
        canonPlatform t = get_platform_slug (chars "java") :=
  (claim_C1_landing_platform_errors demoManifest demoPage
      (chars "GroupDocs.Total")
      [(chars "net", some (chars "24-1")), (chars "java", some (chars "24-1")),
       (chars "python-net", none)]
      (chars "java") (chars "24-1")
      (by decide) (by decide)).mp (by decide)

/-! ### C6: family-page validation -/

/-- C6: a product without a resolved family link is skipped silently; a
raised fetch, a non-200 status, or a near-empty body each record exactly
one error for that product with no platform checks; and the pass is a
per-product concatenation, so the failure of one product never suppresses the
others. -/
theorem claim_C6_family_page_errors (famResp : FamResp)
    (family_links : List (Str × Str)) (p : Str) (plats : PlatMap) :
    (resolveFamilyUrl family_links (get_product_name_variations p) = none →
      validate_family_product famResp family_links p plats = []) ∧
    (∀ url msg,
      resolveFamilyUrl family_links (get_product_name_variations p) = some url →
      famResp url = Except.error msg →
      validate_family_product famResp family_links p plats =
        [VError.familyException p msg]) ∧
    (∀ url st c anchors,
      resolveFamilyUrl family_links (get_product_name_variations p) = some url →
      famResp url = Except.ok (st, c, anchors) → st ≠ 200 →
      validate_family_product famResp family_links p plats =
        [VError.familyStatus p st url]) ∧
    (∀ url c anchors,
      resolveFamilyUrl family_links (get_product_name_variations p) = some url →
      famResp url = Except.ok (200, c, anchors) → (trimStr c).length < 100 →
      validate_family_product famResp family_links p plats =
        [VError.familyEmpty p url]) ∧
    (∀ d1 d2 : Manifest,
      validate_family_pages (d1 ++ (p, plats) :: d2) famResp family_links =
        validate_family_pages d1 famResp family_links ++
        validate_family_product famResp family_links p plats ++
        validate_family_pages d2 famResp family_links) := by
  refine ⟨?_, ?_, ?_, ?_, ?_⟩
  · intro h
    unfold validate_family_product
    dsimp only
    rw [h]
  · intro url msg h1 h2
    unfold validate_family_product
    dsimp only
    rw [h1]
    dsimp only
    rw [h2]
  · intro url st c anchors h1 h2 hst
    unfold validate_family_product
    dsimp only
    rw [h1]
    dsimp only
    rw [h2]
    dsimp only
    rw [if_pos hst]
  · intro url c anchors h1 h2 hlen
    unfold validate_family_product
    dsimp only
    rw [h1]
    dsimp only
    rw [h2]
    dsimp only
    rw [if_neg (by simp), if_pos hlen]
  · intro d1 d2
    unfold validate_family_pages
    rw [List.flatMap_append, List.flatMap_cons, ← List.append_assoc]

/-- Witness for C6 at a concrete product whose family-page fetch raises. -/
theorem claim_C6_witness :
    validate_family_product demoFamResp demoFamilyLinks
      (chars "GroupDocs.Total")
      [(chars "net", some (chars "24-1"))] =
      [VError.familyException (chars "GroupDocs.Total") (chars "refused")] :=
  (claim_C6_family_page_errors demoFamResp demoFamilyLinks
      (chars "GroupDocs.Total") [(chars "net", some (chars "24-1"))]).2.1
    (urljoinB (chars "/total/")) (chars "refused") (by decide) rfl

/-! ### C9: JSON output -/

/-- C9: in the JSON entry of a product, platform keys are the manifest
vocabulary (reconstructed through the inverse token mapping), a null entry
appears exactly for a manifest-available platform whose link was never
discovered, no entry appears for a null-version platform, and the `family`
key is present exactly when a family link was resolved. -/
theorem claim_C9_json_output (family_url : Option Str) (plats : PlatMap)
    (variations : List Str) (product_links : PLMap)
    (hvocab : ∀ kv ∈ plats, kv.1 ∈ platformVocab)
    (hnd : (plats.map Prod.fst).Nodup) :
    (∀ k ∈ platformVocab, jsonKeyOf k = k) ∧
    (∀ k, (k, (none : Option Str)) ∈ plats →
      jsonKeyOf k ∉
        (jsonProductEntry family_url plats variations product_links).map
          Prod.fst) ∧
    (∀ k v, (k, some v) ∈ plats →
      ((jsonKeyOf k, (none : Option Str)) ∈
          jsonProductEntry family_url plats variations product_links ↔
        resolvePlatformUrl product_links variations (get_platform_slug k) =
          none)) ∧
    (chars "family" ∈
        (jsonProductEntry family_url plats variations product_links).map
          Prod.fst ↔
      family_url.isSome = true) := by
  have hjk : ∀ k ∈ platformVocab, jsonKeyOf k = k := by decide
  have hfam : chars "family" ∉ platformVocab := by decide
  refine ⟨hjk, ?_, ?_, ?_⟩
  · intro k hkmem hcontra
    have hkv : k ∈ platformVocab := hvocab (k, none) hkmem
    rw [List.mem_map] at hcontra
    obtain ⟨e, he, hefst⟩ := hcontra
    rcases List.mem_append.mp he with h | h
    · cases family_url with
      | none => exact absurd h (List.not_mem_nil e)
      | some u =>
          rcases List.mem_singleton.mp h with rfl
          rw [hjk k hkv] at hefst
          rw [← hefst] at hkv
          exact hfam hkv
    · rw [List.mem_filterMap] at h
      obtain ⟨kv, hkvmem, hfkv⟩ := h
      rcases hv2 : kv.2 with _ | v2
      · rw [hv2] at hfkv; cases hfkv
      · rw [hv2] at hfkv
        dsimp only at hfkv
        have he2 := Option.some.inj hfkv
        have hkv1 : kv.1 ∈ platformVocab := hvocab kv hkvmem
        have h3 : jsonKeyOf kv.1 = e.1 := congrArg Prod.fst he2
        rw [hefst, hjk kv.1 hkv1, hjk k hkv] at h3
        have hmem2 : (k, some v2) ∈ plats := by
          rw [← h3, ← hv2]
          exact hkvmem
        cases mem_assoc_nodup_eq hnd hmem2 hkmem
  · intro k v hkmem
    have hkv : k ∈ platformVocab := hvocab (k, some v) hkmem
    constructor
    · intro hmem
      rcases List.mem_append.mp hmem with h | h
      · cases family_url with
        | none => exact absurd h (List.not_mem_nil _)
        | some u =>
            have h1 := List.mem_singleton.mp h
            injection h1 with h2 h3
            cases h3
      · rw [List.mem_filterMap] at h
        obtain ⟨kv, hkvmem, hfkv⟩ := h
        rcases hv2 : kv.2 with _ | v2
        · rw [hv2] at hfkv; cases hfkv
        · rw [hv2] at hfkv
          dsimp only at hfkv
          have he2 := Option.some.inj hfkv
          injection he2 with h1 h2
          have hkv1 : kv.1 ∈ platformVocab := hvocab kv hkvmem
          rw [hjk kv.1 hkv1, hjk k hkv] at h1
          rw [h1] at h2
          exact h2
    · intro hres
      unfold jsonProductEntry
      rw [List.mem_append]
      right
      rw [List.mem_filterMap]
      refine ⟨(k, some v), hkmem, ?_⟩
      dsimp only
      rw [hres]
  · constructor
    · intro hmem
      rw [List.mem_map] at hmem
      obtain ⟨e, he, hefst⟩ := hmem
      rcases List.mem_append.mp he with h | h
      · cases family_url with
        | none => exact absurd h (List.not_mem_nil e)
        | some u => rfl
      · exfalso
        rw [List.mem_filterMap] at h
        obtain ⟨kv, hkvmem, hfkv⟩ := h
        rcases hv2 : kv.2 with _ | v2
        · rw [hv2] at hfkv; cases hfkv
        · rw [hv2] at hfkv
          dsimp only at hfkv
          have he2 := Option.some.inj hfkv
          have hkv1 : kv.1 ∈ platformVocab := hvocab kv hkvmem
          have h3 : jsonKeyOf kv.1 = e.1 := congrArg Prod.fst he2
          rw [hefst, hjk kv.1 hkv1] at h3
          rw [h3] at hkv1
          exact hfam hkv1
    · intro hsome
      cases family_url with
      | none => simp at hsome
      | some u =>
          rw [List.mem_map]
          refine ⟨(chars "family", some u), ?_, rfl⟩
          unfold jsonProductEntry
          rw [List.mem_append]
          left
          exact List.mem_singleton.mpr rfl

/-- Witness for C9 at a concrete platform map. -/
theorem claim_C9_witness :
    (jsonKeyOf (chars "python-net"), (none : Option Str)) ∈
        jsonProductEntry (some (urljoinB (chars "/total/")))
          [(chars "net", some (chars "24-1")),
           (chars "python-net", some (chars "24-1"))]
          [chars "total"] [] ↔
      resolvePlatformUrl [] [chars "total"]
        (get_platform_slug (chars "python-net")) = none :=
  (claim_C9_json_output (some (urljoinB (chars "/total/")))
      [(chars "net", some (chars "24-1")),
       (chars "python-net", some (chars "24-1"))]
      [chars "total"] [] (by decide) (by decide)).2.2.1
    (chars "python-net") (chars "24-1") (by decide)

/-! ### C2: exit status -/

theorem ifEmpty_eq_zero_iff (l : List VError) :
    (if l.isEmpty = true then (0 : Nat) else 1) = 0 ↔ l = [] := by
  cases l <;> simp

/-- C2 as stated fails: a successfully fetched manifest whose filtered
product map is empty makes the run exit non-zero although the error list
is empty, because the returned (empty) product dict is falsy. -/
theorem claim_C2_counterexample :
    mainExitCode demoWorldEmptyManifest = 1 ∧
    (run demoWorldEmptyManifest).errors = [] := by
  constructor <;> rfl

/-- C2 amended: the exit status is 0 iff no error was recorded and the
filtered product map is non-empty; a fatal manifest or landing-page
failure yields a non-zero exit and short-circuits before validation. -/
theorem claim_C2_exit_status (w : World) :
    (mainExitCode w = 0 ↔ (run w).errors = [] ∧ filteredData w ≠ []) ∧
    (∀ msg, w.manifestResp = Except.error msg →
      mainExitCode w = 1 ∧ (run w).ranValidation = false) ∧
    (∀ msg, w.landingResp = Except.error msg →
      mainExitCode w = 1 ∧ (run w).ranValidation = false) := by
  obtain ⟨m, l, f, liv⟩ := w
  cases m with
  | error e =>
      refine ⟨by simp [mainExitCode, run, filteredData], ?_, ?_⟩
      · intro msg hmsg
        exact ⟨rfl, rfl⟩
      · intro msg hmsg
        exact ⟨rfl, rfl⟩
  | ok all =>
      by_cases hd : fetchJsonFilter all = []
      · refine ⟨?_, ?_, ?_⟩
        · simp [mainExitCode, run, filteredData, hd]
        · intro msg hmsg; simp at hmsg
        · intro msg hmsg
          exact ⟨by simp [mainExitCode, run, hd], by simp [run, hd]⟩
      · cases l with
        | error e2 =>
            refine ⟨?_, ?_, ?_⟩
            · simp [mainExitCode, run, filteredData, hd, parse_landing_page]
            · intro msg hmsg; simp at hmsg
            · intro msg hmsg
              exact ⟨by simp [mainExitCode, run, hd, parse_landing_page],
                     by simp [run, hd, parse_landing_page]⟩
        | ok trip =>
            obtain ⟨st, c, page⟩ := trip
            refine ⟨?_, ?_, ?_⟩
            · by_cases h200 : st = 200
              · subst h200
                by_cases hlen : (trimStr c).length < 100
                · simp [mainExitCode, run, filteredData, hd,
                    parse_landing_page, hlen]
                · simp [mainExitCode, run, filteredData, hd,
                    parse_landing_page, hlen, ifEmpty_eq_zero_iff]
              · simp [mainExitCode, run, filteredData, hd,
                  parse_landing_page, h200]
            · intro msg hmsg; simp at hmsg
            · intro msg hmsg; simp at hmsg

/-- Witness for the amended C2: a failing manifest fetch exits 1 without
running validation. -/
theorem claim_C2_witness :
    mainExitCode demoWorldManifestFail = 1 ∧
    (run demoWorldManifestFail).ranValidation = false :=
  (claim_C2_exit_status demoWorldManifestFail).2.1 (chars "timeout") rfl

/-! ### C7: liveness checking and report rendering -/

/-- C7: a link is valid iff status 200 with at least 100 trimmed
characters, exceptions yield (0, false), an invalid probe renders as the
raw status code in the table cell, and report-time liveness outcomes never
change the error list. -/
theorem claim_C7_liveness (r : Except Unit (Nat × Str)) :
    ((validate_link r).2 = true ↔
      ∃ st c, r = Except.ok (st, c) ∧ st = 200 ∧ 100 ≤ (trimStr c).length) ∧
    (∀ e, r = Except.error e → validate_link r = (0, false)) ∧
    (∀ liveness url st c, liveness url = Except.ok (st, c) →
      (validate_link (liveness url)).2 = false →
      renderLinkCell liveness url =
        chars " [" ++ natToStr st ++ chars "](" ++ url ++ chars ") |") ∧
    (∀ liveness url e, liveness url = Except.error e →
      renderLinkCell liveness url =
        chars " [" ++ natToStr 0 ++ chars "](" ++ url ++ chars ") |") ∧
    (∀ m l f liv1 liv2,
      (run (World.mk m l f liv1)).errors = (run (World.mk m l f liv2)).errors) := by
  refine ⟨?_, ?_, ?_, ?_, ?_⟩
  · cases r with
    | error e => simp [validate_link]
    | ok pair =>
        obtain ⟨st, c⟩ := pair
        simp only [validate_link, Bool.and_eq_true, decide_eq_true_eq]
        constructor
        · rintro ⟨h1, h2⟩
          exact ⟨st, c, rfl, h1, h2⟩
        · rintro ⟨st2, c2, heq, h1, h2⟩
          injection heq with h3
          injection h3 with h4 h5
          subst h4
          subst h5
          exact ⟨h1, h2⟩
  · intro e h
    rw [h]
    rfl
  · intro liveness url st c h1 h2
    rw [h1] at h2
    simp only [renderLinkCell]
    rw [h1]
    rw [if_neg (by simp [h2])]
    rfl
  · intro liveness url e h1
    simp only [renderLinkCell]
    rw [h1]
    rw [if_neg (by simp [validate_link])]
    rfl
  · intro m l f liv1 liv2
    cases m with
    | error e => rfl
    | ok all =>
        by_cases hd : fetchJsonFilter all = []
        · simp [run, hd]
        · cases l with
          | error e2 => simp [run, hd, parse_landing_page]
          | ok trip =>
              obtain ⟨st, c, page⟩ := trip
              by_cases h200 : st = 200
              · subst h200
                by_cases hlen : (trimStr c).length < 100
                · simp [run, hd, parse_landing_page, hlen]
                · simp [run, hd, parse_landing_page, hlen]
              · simp [run, hd, parse_landing_page, h200]

/-- Witness for C7: a 500 response renders as the status code cell. -/
theorem claim_C7_witness :
    renderLinkCell (fun _ => Except.ok (500, chars "x"))
      (urljoinB (chars "/total/")) =
      chars " [" ++ natToStr 500 ++ chars "](" ++
        urljoinB (chars "/total/") ++ chars ") |" :=
  (claim_C7_liveness (Except.ok (500, chars "x"))).2.2.1
    (fun _ => Except.ok (500, chars "x")) (urljoinB (chars "/total/"))
    500 (chars "x") rfl (by decide)
